import Mathlib

/-!
Verification of the publish-state tracking, entry filtering, link extraction
and domain-gate logic of a Reddit-to-Lemmy repost bot (`src/main.py`).

Modelling conventions (shallow embedding):
* Python `str` is Lean `String`; the handful of Python string operations the
  source uses (`strip`, slicing by one character, `startswith`, `endswith`,
  substring containment) are given explicit executable definitions on the
  character list underlying a `String`.
* Timestamps (`datetime`) are integers counting seconds; a `timedelta` of
  `h` hours is `h * 3600`.  `a - b > timedelta(hours=h)` becomes
  `a - b > h * 3600`.
* The persisted `published_urls.json` dict (URL -> {published_time}) is an
  insertion-ordered association list `List (String × Int)`; Python `in`
  on the dict is key membership, `d[k] = v` is `dictInsert`.
* `html.unescape` (Python stdlib, external to the repo) is modelled on the
  five basic HTML entities; it is the identity on strings without `&`,
  which is all the theorems below rely on.
* `tldextract` (third-party, external to the repo) is modelled as a function
  that fails (raises) exactly on an absent (`None`) URL and otherwise
  returns a (domain, suffix) pair computed from the host part of the URL.
* Python exceptions that the source does not catch are modelled by `Option`:
  a `none` result of `format_and_extract` or of the publishing loop is an
  uncaught exception aborting the run.
* Python values of mixed type (the `-1` sentinel of `find_base_domain`
  versus the domain strings of the ignore set) live in `PyVal`; Python
  `==`/`in` across types is equality/membership in `PyVal`.
-/

/-! ## Python string primitives -/

/-- Python `needle in haystack` on one-character-list strings:
`needle.data` is a prefix of some suffix of `hay.data`. -/
def strContains (hay needle : String) : Bool :=
  (List.range (hay.data.length + 1)).any
    (fun i => needle.data.isPrefixOf (hay.data.drop i))

/-- Python `s.startswith(p)`. -/
def strStartsWith (s p : String) : Bool :=
  p.data.isPrefixOf s.data

/-- Python `s.endswith(p)`. -/
def strEndsWith (s p : String) : Bool :=
  p.data.reverse.isPrefixOf s.data.reverse

/-- Python `s[1:]`: drop the first character. -/
def dropFirstChar (s : String) : String :=
  ⟨s.data.drop 1⟩

/-- Python `s[:-1]`: drop the last character. -/
def dropLastChar (s : String) : String :=
  ⟨s.data.dropLast⟩

/-- Python `s.strip()`: remove leading and trailing whitespace. -/
def pyStrip (s : String) : String :=
  ⟨((s.data.dropWhile Char.isWhitespace).reverse.dropWhile Char.isWhitespace).reverse⟩

/-! ## `html.unescape` (model of the Python stdlib call) -/

/-- One left-to-right pass replacing the five basic HTML entities,
modelling Python's `html.unescape` on its most common inputs. -/
def unescapeChars : List Char → List Char
  | '&' :: 'a' :: 'm' :: 'p' :: ';' :: rest => '&' :: unescapeChars rest
  | '&' :: 'l' :: 't' :: ';' :: rest => '<' :: unescapeChars rest
  | '&' :: 'g' :: 't' :: ';' :: rest => '>' :: unescapeChars rest
  | '&' :: 'q' :: 'u' :: 'o' :: 't' :: ';' :: rest => '"' :: unescapeChars rest
  | '&' :: '#' :: '3' :: '9' :: ';' :: rest => '\'' :: unescapeChars rest
  | c :: rest => c :: unescapeChars rest
  | [] => []

/-- `html.unescape` on strings. -/
def htmlUnescape (s : String) : String :=
  ⟨unescapeChars s.data⟩

/-! ## Link extractor: `format_and_extract` (src/main.py lines 22-49)

An `Anchor` is one `<a>` element of the parsed HTML summary: the text of its
child nodes in order, and the value of its `href` attribute (`none` when the
attribute is absent, i.e. Python `link.get("href") is None`). -/

structure Anchor where
  childTexts : List String
  href : Option String
deriving DecidableEq, Repr

/-- Rendering of the `url` local in the Python f-string
`f"- [{text}]({url})\n"`: an absent href prints as `None`. -/
def showUrl : Option String → String
  | some u => u
  | none => "None"

/-- The two bracket-stripping statements of the final `else` branch of the
label rule: drop one leading `[` and one trailing `]` if present. -/
def stripBrackets (s : String) : String :=
  let f1 := if strStartsWith s "[" then dropFirstChar s else s
  if strEndsWith f1 "]" then dropLastChar f1 else f1

/-- The label the loop body of `format_and_extract` computes from the
stripped first child text of an anchor (the four-way `if`/`elif` chain,
first match wins). -/
def deriveLabel (first_child : String) : String :=
  if first_child = "[link]" then "Link Shared on Reddit"
  else if first_child = "[comments]" then "Original Reddit Comments"
  else if strStartsWith first_child "/u/" then "Author: " ++ first_child
  else htmlUnescape (stripBrackets first_child)

/-- The loop of `format_and_extract`: `acc` is the `formatted` accumulator,
`ext` the current `extracted_url`.  `next(link.children)` on an anchor with
no children raises `StopIteration`; the uncaught exception is `none`. -/
def faeGo (acc : String) (ext : Option String) : List Anchor → Option (String × Option String)
  | [] => some (acc, ext)
  | a :: rest =>
    match a.childTexts.head? with
    | none => none
    | some raw =>
      let first_child := pyStrip raw
      faeGo
        (acc ++ "- [" ++ deriveLabel first_child ++ "](" ++ showUrl a.href ++ ")\n")
        (if first_child = "[link]" then a.href else ext)
        rest

/-- `format_and_extract(summary)`: returns the markdown body and the
extracted URL, or `none` when the loop raises. -/
def format_and_extract (anchors : List Anchor) : Option (String × Option String) :=
  faeGo "" none anchors

/-- Stripped first child text of an anchor (total version, for statements
about anchors known to have a child). -/
def firstText (a : Anchor) : String :=
  pyStrip (a.childTexts.headD "")

/-- The markdown bullet line `format_and_extract` emits for one anchor. -/
def bulletLine (a : Anchor) : String :=
  "- [" ++ deriveLabel (firstText a) ++ "](" ++ showUrl a.href ++ ")\n"

/-- Concatenation of a list of strings (document order). -/
def concatAll : List String → String
  | [] => ""
  | s :: rest => s ++ concatAll rest

/-- The `extracted_url` after folding over the anchors: the href of the last
anchor whose stripped first text is `[link]`, else the incoming value. -/
def lastLinkHref (ext : Option String) : List Anchor → Option String
  | [] => ext
  | a :: rest => lastLinkHref (if firstText a = "[link]" then a.href else ext) rest

/-! ## Data model: feed entries and the persisted publish record

A `FeedEntry` is one item of the parsed RSS feed: its link (URL), title,
publication timestamp (seconds), and HTML summary (represented by its parsed
anchor elements, the only part of the summary the source inspects). -/

structure FeedEntry where
  link : String
  title : String
  published : Int
  summary : List Anchor
deriving DecidableEq, Repr

/-- The persisted `published_urls.json` mapping: URL key to the
`published_time` value, insertion-ordered like a Python dict. -/
abbrev UrlDict := List (String × Int)

/-- Python `k in d` on the dict: key membership. -/
def isKey (d : UrlDict) (k : String) : Bool :=
  d.any (fun p => p.1 = k)

/-- Python `d[k] = v`: overwrite in place when the key exists, append
otherwise. -/
def dictInsert (d : UrlDict) (k : String) (v : Int) : UrlDict :=
  if isKey d k then d.map (fun p => if p.1 = k then (k, v) else p)
  else d ++ [(k, v)]

/-- `remove_old_url_keys(url_dict, limit_hours)` (src/main.py lines 101-117):
keep exactly the records whose `published_time` is strictly less than
`limit_hours` hours old at `now`. -/
def remove_old_url_keys (now : Int) (url_dict : UrlDict) (limit_hours : Int) : UrlDict :=
  url_dict.filter (fun p => now - p.2 < limit_hours * 3600)

/-- The marker string of the first skip rule of the filter loop. -/
def dailyThreadMarker : String :=
  "General Discussion - Daily Thread"

/-- The entry filter of `main` (src/main.py lines 168-182): the
`if`/`elif`/`elif`/`else` chain deciding, for each feed entry in feed order,
whether it is appended to `entries_to_publish`. -/
def entriesToPublish (now : Int) (limit_hours : Int) (published_urls_dict : UrlDict) :
    List FeedEntry → List FeedEntry
  | [] => []
  | entry :: rest =>
    if strContains entry.title dailyThreadMarker then
      entriesToPublish now limit_hours published_urls_dict rest
    else if now - entry.published > limit_hours * 3600 then
      entriesToPublish now limit_hours published_urls_dict rest
    else if isKey published_urls_dict entry.link then
      entriesToPublish now limit_hours published_urls_dict rest
    else
      entry :: entriesToPublish now limit_hours published_urls_dict rest

/-- Eligibility of a single entry, written after the spec's words: decision
order per entry, first match wins; rules 1-3 exclude, otherwise eligible. -/
def eligibleDecide (now : Int) (limit_hours : Int) (d : UrlDict) (e : FeedEntry) : Bool :=
  if strContains e.title dailyThreadMarker then false
  else if now - e.published > limit_hours * 3600 then false
  else if isKey d e.link then false
  else true

/-- The filter contract after the spec's words: the eligible subset of the
fetched entries, in feed order. -/
def entriesToPublishSpec (now : Int) (limit_hours : Int) (d : UrlDict)
    (entries : List FeedEntry) : List FeedEntry :=
  entries.filter (eligibleDecide now limit_hours d)

/-! ## Domain gate: `load_ignored_domains` and `find_base_domain`
(src/main.py lines 83-99)

`find_base_domain` returns either a domain string or the integer sentinel
`-1` (the bare `except` branch), so its result lives in a small universe of
Python values; the ignore set holds strings. -/

inductive PyVal where
  | str (s : String)
  | int (n : Int)
deriving DecidableEq, Repr

/-- Python `v in s` on the ignore set. -/
def pyMem (v : PyVal) (l : List PyVal) : Bool :=
  l.any (fun x => x = v)

/-- `load_ignored_domains(path)` as a function of the lines of the ignore
file: strip every line, keep the non-empty ones not starting with `#`
(membership in the resulting set is what the caller uses, so the set is kept
as the filtered list). -/
def load_ignored_domains (fileLines : List String) : List PyVal :=
  (((fileLines.map pyStrip).filter
      (fun l => !strStartsWith l "#" && decide (l ≠ ""))).map PyVal.str)

/-- Everything of a URL after the first `://`, or `none` when there is no
scheme separator. -/
def afterScheme : List Char → Option (List Char)
  | ':' :: '/' :: '/' :: rest => some rest
  | _ :: rest => afterScheme rest
  | [] => none

/-- The host part of a URL: what stands between the scheme separator (if
any) and the first `/`. -/
def hostChars (u : List Char) : List Char :=
  ((afterScheme u).getD u).takeWhile (fun c => c ≠ '/')

/-- Split a character list on `.` into its labels. -/
def splitOnDot : List Char → List (List Char)
  | [] => [[]]
  | '.' :: rest => [] :: splitOnDot rest
  | c :: rest =>
    match splitOnDot rest with
    | g :: gs => (c :: g) :: gs
    | [] => [[c]]

/-- Model of `tldextract.extract` (third-party library): fails (raises,
caught by the caller's bare `except`) exactly on an absent (`None`) URL;
on a string it returns the (domain, suffix) pair, modelled as the last two
dot-separated labels of the host. -/
def tldextract_extract : Option String → Except Unit (String × String)
  | none => Except.error ()
  | some u =>
    let labels := splitOnDot (hostChars u.data)
    Except.ok (⟨labels.dropLast.getLastD []⟩, ⟨labels.getLastD []⟩)

/-- `find_base_domain(extracted_url)` (src/main.py lines 92-99):
`f"{domain}.{suffix}"` on success, the integer `-1` on failure. -/
def find_base_domain (extracted_url : Option String) : PyVal :=
  match tldextract_extract extracted_url with
  | Except.ok p => PyVal.str (p.1 ++ "." ++ p.2)
  | Except.error _ => PyVal.int (-1)

/-! ## The publish loop of `main` (src/main.py lines 186-211) -/

/-- The arguments of one `lemmy.post.create` call: post title (HTML-unescaped
entry title), the extracted URL, and the markdown body. -/
structure PublishCall where
  name : String
  url : Option String
  body : String
deriving DecidableEq, Repr

/-- The extracted URL of an entry's summary (`none` both when no anchor has
text `[link]` and when `format_and_extract` raises; in the latter case the
publish loop aborts before using it). -/
def extractedUrlOf (e : FeedEntry) : Option String :=
  match format_and_extract e.summary with
  | some (_, x) => x
  | none => none

/-- The registrable domain `main` computes for an entry. -/
def domainOf (e : FeedEntry) : PyVal :=
  find_base_domain (extractedUrlOf e)

/-- The publish loop over `entries_to_publish`: accumulates the publish
calls made (paired with the entry they were made for) and the updated
`published_urls_dict`; `none` is an uncaught exception aborting the run. -/
def processGo (ignored : List PyVal) (calls : List (FeedEntry × PublishCall)) (d : UrlDict) :
    List FeedEntry → Option (List (FeedEntry × PublishCall) × UrlDict)
  | [] => some (calls, d)
  | e :: rest =>
    match format_and_extract e.summary with
    | none => none
    | some (formatted, extracted_url) =>
      let base_domain := find_base_domain extracted_url
      if pyMem base_domain ignored then
        processGo ignored calls d rest
      else
        processGo ignored
          (calls ++ [(e, ⟨htmlUnescape e.title, extracted_url, formatted⟩)])
          (dictInsert d e.link e.published) rest

/-- The publish loop started on the filtered entries with the pruned dict. -/
def processEntries (ignored : List PyVal) (entries : List FeedEntry) (d : UrlDict) :
    Option (List (FeedEntry × PublishCall) × UrlDict) :=
  processGo ignored [] d entries

/-! ## The whole run (`main`, src/main.py lines 137-211) -/

/-- Observable outcome of one run of `main`.  `markerLog` is the one place
the loaded last-fetch marker flows into; `writtenMarker` is the value
written over `last_date_published.txt` before filtering; `outcome` is
`none` when the run dies on an uncaught exception. -/
structure RunResult where
  markerLog : String
  writtenMarker : Int
  eligible : List FeedEntry
  outcome : Option (List (FeedEntry × PublishCall) × UrlDict)
deriving Repr

/-- One run of `main` as a function of its inputs: the persisted last-fetch
marker, the lines of the ignore file, the fetched feed entries, the
persisted publish record, and the wall clock `now` (the source reads the
clock twice a few statements apart; the model uses one instant). -/
def runBot (marker : Int) (ignoreLines : List String) (entries : List FeedEntry)
    (storedDict : UrlDict) (now : Int) : RunResult :=
  let limit_hours : Int := 24
  let ignored_domains := load_ignored_domains ignoreLines
  let last_published := marker
  let pruned := remove_old_url_keys now storedDict limit_hours
  let eligible := entriesToPublish now limit_hours pruned entries
  { markerLog := "Fetched last published date: " ++ toString last_published
    writtenMarker := now
    eligible := eligible
    outcome := processGo ignored_domains [] pruned eligible }

/-! ## Witness inputs -/

/-- A plain feed entry used as concrete input in witnesses. -/
def wEntry : FeedEntry :=
  { link := "u", title := "t", published := 0, summary := [] }

/-- The anchors of the spec's extraction scenario. -/
def wAnchors : List Anchor :=
  [{ childTexts := ["[link]"], href := some "http://a" },
   { childTexts := ["[comments]"], href := some "http://b" },
   { childTexts := ["/u/foo"], href := some "http://c" }]

/-- An eligible entry whose shared link's registrable domain is `bad.com`. -/
def wBadEntry : FeedEntry :=
  { link := "u", title := "t", published := 0,
    summary := [{ childTexts := ["[link]"], href := some "http://bad.com/x" }] }

/-! ## Theorems -/

set_option maxHeartbeats 1000000 in
theorem unescapeChars_cons_ne (c : Char) (rest : List Char) (hc : c ≠ '&') :
    unescapeChars (c :: rest) = c :: unescapeChars rest := by
  rw [unescapeChars.eq_def]
  split
  all_goals simp_all

theorem unescapeChars_no_amp (l : List Char) (h : '&' ∉ l) : unescapeChars l = l := by
  induction l with
  | nil => rfl
  | cons c rest ih =>
    have hc : c ≠ '&' := fun e => h (e ▸ List.mem_cons_self _ _)
    have hr : '&' ∉ rest := fun m => h (List.mem_cons_of_mem _ m)
    rw [unescapeChars_cons_ne c rest hc, ih hr]

theorem htmlUnescape_no_amp (s : String) (h : '&' ∉ s.data) : htmlUnescape s = s := by
  unfold htmlUnescape
  rw [unescapeChars_no_amp s.data h]

theorem string_append_empty (s : String) : s ++ "" = s := by
  cases s with
  | mk data =>
    show String.mk (data ++ "".data) = String.mk data
    simp

theorem string_append_assoc (a b c : String) : (a ++ b) ++ c = a ++ (b ++ c) := by
  cases a; cases b; cases c
  show String.mk _ = String.mk _
  simp [String.instAppend, String.append]

theorem faeGo_characterization :
    ∀ (l : List Anchor) (acc : String) (ext : Option String),
      (∀ a ∈ l, a.childTexts ≠ []) →
      faeGo acc ext l = some (acc ++ concatAll (l.map bulletLine), lastLinkHref ext l) := by
  intro l
  induction l with
  | nil =>
    intro acc ext _
    simp [faeGo, concatAll, lastLinkHref, string_append_empty]
  | cons a rest ih =>
    intro acc ext h
    have ha : a.childTexts ≠ [] := h a (List.mem_cons_self _ _)
    have hrest : ∀ x ∈ rest, x.childTexts ≠ [] := fun x hx => h x (List.mem_cons_of_mem _ hx)
    obtain ⟨c, t, hct⟩ : ∃ c t, a.childTexts = c :: t := by
      cases hc : a.childTexts with
      | nil => exact absurd hc ha
      | cons c t => exact ⟨c, t, rfl⟩
    have hhead : a.childTexts.head? = some c := by rw [hct]; rfl
    have hfirst : firstText a = pyStrip c := by unfold firstText; rw [hct]; rfl
    have step : faeGo acc ext (a :: rest)
        = faeGo (acc ++ "- [" ++ deriveLabel (pyStrip c) ++ "](" ++ showUrl a.href ++ ")\n")
            (if pyStrip c = "[link]" then a.href else ext) rest := by
      rw [faeGo, hhead]
    rw [step, ih _ _ hrest]
    have hb : (acc ++ "- [" ++ deriveLabel (pyStrip c) ++ "](" ++ showUrl a.href ++ ")\n")
        ++ concatAll (List.map bulletLine rest)
        = acc ++ concatAll (List.map bulletLine (a :: rest)) := by
      apply String.ext
      simp [bulletLine, concatAll, hfirst, String.data_append]
    have hl : lastLinkHref (if pyStrip c = "[link]" then a.href else ext) rest
        = lastLinkHref ext (a :: rest) := by
      rw [lastLinkHref, hfirst]
    rw [hb, hl]

theorem lastLinkHref_no_link :
    ∀ (l : List Anchor) (ext : Option String),
      (∀ a ∈ l, firstText a ≠ "[link]") → lastLinkHref ext l = ext := by
  intro l
  induction l with
  | nil => intro ext _; rfl
  | cons a rest ih =>
    intro ext h
    have ha : firstText a ≠ "[link]" := h a (List.mem_cons_self _ _)
    rw [lastLinkHref, if_neg ha]
    exact ih ext (fun x hx => h x (List.mem_cons_of_mem _ hx))

theorem lastLinkHref_filter :
    ∀ (l : List Anchor) (ext : Option String),
      lastLinkHref ext l
        = lastLinkHref ext (l.filter (fun a => decide (firstText a = "[link]"))) := by
  intro l
  induction l with
  | nil => intro ext; rfl
  | cons a rest ih =>
    intro ext
    by_cases ha : firstText a = "[link]"
    · rw [lastLinkHref, if_pos ha]
      have : (a :: rest).filter (fun a => decide (firstText a = "[link]"))
          = a :: rest.filter (fun a => decide (firstText a = "[link]")) := by
        simp [List.filter, ha]
      rw [this, lastLinkHref, if_pos ha]
      exact ih a.href
    · rw [lastLinkHref, if_neg ha]
      have : (a :: rest).filter (fun a => decide (firstText a = "[link]"))
          = rest.filter (fun a => decide (firstText a = "[link]")) := by
        simp [List.filter, ha]
      rw [this]
      exact ih ext

theorem lastLinkHref_unique (l : List Anchor) (a : Anchor)
    (h : l.filter (fun x => decide (firstText x = "[link]")) = [a]) :
    lastLinkHref none l = a.href := by
  have ha : firstText a = "[link]" := by
    have : a ∈ l.filter (fun x => decide (firstText x = "[link]")) := by
      rw [h]; exact List.mem_cons_self _ _
    simpa using (List.mem_filter.mp this).2
  rw [lastLinkHref_filter, h, lastLinkHref, if_pos ha]
  rfl

theorem entriesToPublish_eq_filter (now limit_hours : Int) (d : UrlDict) :
    ∀ entries : List FeedEntry,
      entriesToPublish now limit_hours d entries
        = entries.filter (eligibleDecide now limit_hours d) := by
  intro entries
  induction entries with
  | nil => rfl
  | cons e rest ih =>
    rw [entriesToPublish]
    by_cases h1 : strContains e.title dailyThreadMarker
    · rw [if_pos h1, ih]
      have : eligibleDecide now limit_hours d e = false := by
        unfold eligibleDecide; rw [if_pos h1]
      simp [List.filter, this]
    · rw [if_neg h1]
      by_cases h2 : now - e.published > limit_hours * 3600
      · rw [if_pos h2, ih]
        have : eligibleDecide now limit_hours d e = false := by
          unfold eligibleDecide; rw [if_neg h1, if_pos h2]
        simp [List.filter, this]
      · rw [if_neg h2]
        by_cases h3 : isKey d e.link
        · rw [if_pos h3, ih]
          have : eligibleDecide now limit_hours d e = false := by
            unfold eligibleDecide; rw [if_neg h1, if_neg h2, if_pos h3]
          simp [List.filter, this]
        · rw [if_neg h3, ih]
          have : eligibleDecide now limit_hours d e = true := by
            unfold eligibleDecide; rw [if_neg h1, if_neg h2, if_neg h3]
          simp [List.filter, this]

/-! ## Helper lemmas about the publish loop and the dict -/

theorem string_empty_append (s : String) : "" ++ s = s := by
  apply String.ext
  simp [String.data_append]

theorem isKey_map_overwrite (k' k : String) (v : Int) :
    ∀ l : UrlDict,
      ((l.map (fun p => if p.1 = k' then (k', v) else p)).any fun p => decide (p.1 = k))
        = l.any fun p => decide (p.1 = k) := by
  intro l
  induction l with
  | nil => rfl
  | cons p rest ih =>
    by_cases hp : p.1 = k'
    · simp only [List.map_cons, List.any_cons, if_pos hp, ih]
      rw [hp]
    · simp only [List.map_cons, List.any_cons, if_neg hp, ih]

theorem isKey_dictInsert_ne (d : UrlDict) (k' : String) (v : Int) (k : String)
    (h : k' ≠ k) : isKey (dictInsert d k' v) k = isKey d k := by
  unfold dictInsert
  by_cases hk : isKey d k'
  · rw [if_pos hk]
    unfold isKey
    exact isKey_map_overwrite k' k v d
  · rw [if_neg hk]
    unfold isKey
    simp [List.any_append, h]

theorem processGo_calls_not_ignored (ignored : List PyVal) :
    ∀ (l : List FeedEntry) (calls : List (FeedEntry × PublishCall)) (d : UrlDict)
      (out : List (FeedEntry × PublishCall) × UrlDict),
      processGo ignored calls d l = some out →
      (∀ c ∈ calls, pyMem (domainOf c.1) ignored = false) →
      ∀ c ∈ out.1, pyMem (domainOf c.1) ignored = false := by
  intro l
  induction l with
  | nil =>
    intro calls d out hrun hcalls
    have : calls = out.1 := by
      rw [processGo] at hrun
      cases hrun
      rfl
    exact this ▸ hcalls
  | cons e rest ih =>
    intro calls d out hrun hcalls
    rw [processGo] at hrun
    cases hf : format_and_extract e.summary with
    | none => rw [hf] at hrun; exact absurd hrun (by simp)
    | some p =>
      rw [hf] at hrun
      obtain ⟨formatted, extracted_url⟩ := p
      simp only [] at hrun
      by_cases hig : pyMem (find_base_domain extracted_url) ignored
      · rw [if_pos hig] at hrun
        exact ih calls d out hrun hcalls
      · rw [if_neg hig] at hrun
        refine ih _ _ out hrun ?_
        intro c hc
        rcases List.mem_append.mp hc with hc1 | hc2
        · exact hcalls c hc1
        · have hce : c = (e, ⟨htmlUnescape e.title, extracted_url, formatted⟩) := by
            simpa using hc2
          have hdom : domainOf e = find_base_domain extracted_url := by
            unfold domainOf extractedUrlOf
            rw [hf]
          rw [hce]
          show pyMem (domainOf e) ignored = false
          rw [hdom]
          exact Bool.eq_false_iff.mpr hig

theorem processGo_mem_calls (ignored : List PyVal) :
    ∀ (l : List FeedEntry) (calls : List (FeedEntry × PublishCall)) (d : UrlDict)
      (out : List (FeedEntry × PublishCall) × UrlDict),
      processGo ignored calls d l = some out →
      ∀ c ∈ out.1, c ∈ calls ∨ c.1 ∈ l := by
  intro l
  induction l with
  | nil =>
    intro calls d out hrun c hc
    have : calls = out.1 := by
      rw [processGo] at hrun
      cases hrun
      rfl
    exact Or.inl (this ▸ hc)
  | cons e rest ih =>
    intro calls d out hrun c hc
    rw [processGo] at hrun
    cases hf : format_and_extract e.summary with
    | none => rw [hf] at hrun; exact absurd hrun (by simp)
    | some p =>
      rw [hf] at hrun
      obtain ⟨formatted, extracted_url⟩ := p
      simp only [] at hrun
      by_cases hig : pyMem (find_base_domain extracted_url) ignored
      · rw [if_pos hig] at hrun
        rcases ih calls d out hrun c hc with h1 | h2
        · exact Or.inl h1
        · exact Or.inr (List.mem_cons_of_mem _ h2)
      · rw [if_neg hig] at hrun
        rcases ih _ _ out hrun c hc with h1 | h2
        · rcases List.mem_append.mp h1 with ha | hb
          · exact Or.inl ha
          · have : c = (e, ⟨htmlUnescape e.title, extracted_url, formatted⟩) := by
              simpa using hb
            exact Or.inr (this ▸ List.mem_cons_self _ _)
        · exact Or.inr (List.mem_cons_of_mem _ h2)

theorem processGo_key_preserved (ignored : List PyVal) (k : String) :
    ∀ (l : List FeedEntry) (calls : List (FeedEntry × PublishCall)) (d : UrlDict)
      (out : List (FeedEntry × PublishCall) × UrlDict),
      processGo ignored calls d l = some out →
      isKey d k = false →
      (∀ e ∈ l, e.link = k → pyMem (domainOf e) ignored = true) →
      isKey out.2 k = false := by
  intro l
  induction l with
  | nil =>
    intro calls d out hrun hkey _
    have : d = out.2 := by
      rw [processGo] at hrun
      cases hrun
      rfl
    exact this ▸ hkey
  | cons e rest ih =>
    intro calls d out hrun hkey hall
    rw [processGo] at hrun
    cases hf : format_and_extract e.summary with
    | none => rw [hf] at hrun; exact absurd hrun (by simp)
    | some p =>
      rw [hf] at hrun
      obtain ⟨formatted, extracted_url⟩ := p
      simp only [] at hrun
      have hdom : domainOf e = find_base_domain extracted_url := by
        unfold domainOf extractedUrlOf
        rw [hf]
      by_cases hig : pyMem (find_base_domain extracted_url) ignored
      · rw [if_pos hig] at hrun
        exact ih calls d out hrun hkey
          (fun x hx hxk => hall x (List.mem_cons_of_mem _ hx) hxk)
      · rw [if_neg hig] at hrun
        have hne : e.link ≠ k := by
          intro he
          have := hall e (List.mem_cons_self _ _) he
          rw [hdom] at this
          exact hig (by rw [this])
        refine ih _ _ out hrun ?_ (fun x hx hxk => hall x (List.mem_cons_of_mem _ hx) hxk)
        rw [isKey_dictInsert_ne d e.link e.published k hne]
        exact hkey

theorem mem_load_ignored_domains {lines : List String} {v : PyVal}
    (hv : v ∈ load_ignored_domains lines) :
    ∃ s, v = PyVal.str s ∧ s ≠ "" ∧ strStartsWith s "#" = false := by
  unfold load_ignored_domains at hv
  rcases List.mem_map.mp hv with ⟨s, hs, hvs⟩
  have hpred := (List.mem_filter.mp hs).2
  have hpred' : (!strStartsWith s "#") = true ∧ decide (s ≠ "") = true := by
    simpa using hpred
  have h1 : strStartsWith s "#" = false := by
    simpa using hpred'.1
  exact ⟨s, hvs.symm, of_decide_eq_true hpred'.2, h1⟩

theorem eligibleDecide_false_of_key (now limit_hours : Int) (d : UrlDict) (e : FeedEntry)
    (h : isKey d e.link = true) : eligibleDecide now limit_hours d e = false := by
  unfold eligibleDecide
  by_cases h1 : strContains e.title dailyThreadMarker
  · rw [if_pos h1]
  · rw [if_neg h1]
    by_cases h2 : now - e.published > limit_hours * 3600
    · rw [if_pos h2]
    · rw [if_neg h2, if_pos h]

theorem eligibleDecide_false_of_old (now limit_hours : Int) (d : UrlDict) (e : FeedEntry)
    (h : now - e.published > limit_hours * 3600) :
    eligibleDecide now limit_hours d e = false := by
  unfold eligibleDecide
  by_cases h1 : strContains e.title dailyThreadMarker
  · rw [if_pos h1]
  · rw [if_neg h1, if_pos h]

theorem stripBrackets_id (s : String) (h1 : strStartsWith s "[" = false)
    (h3 : strEndsWith s "]" = false) : stripBrackets s = s := by
  unfold stripBrackets
  simp [h1, h3]

theorem deriveLabel_fixed (L : String)
    (h1 : strStartsWith L "[" = false)
    (h2 : strStartsWith L "/u/" = false)
    (h3 : strEndsWith L "]" = false)
    (h4 : '&' ∉ L.data) :
    deriveLabel L = L := by
  have hne1 : L ≠ "[link]" := by
    intro he
    rw [he] at h1
    exact absurd h1 (by decide)
  have hne2 : L ≠ "[comments]" := by
    intro he
    rw [he] at h1
    exact absurd h1 (by decide)
  unfold deriveLabel
  rw [if_neg hne1, if_neg hne2,
    if_neg (show ¬(strStartsWith L "/u/" = true) by simp [h2]),
    stripBrackets_id L h1 h3]
  exact htmlUnescape_no_amp L h4

/-! ## The claims -/

/-- C1: an entry whose URL is a key of the publish record (as pruned at the
start of the run) is excluded by the entry filter, and consequently no
publish call of the run's publish loop is made for that entry. -/
theorem recordedUrl_not_republished (now limit_hours : Int) (d0 : UrlDict)
    (entries : List FeedEntry) (e : FeedEntry) (ignored : List PyVal)
    (out : List (FeedEntry × PublishCall) × UrlDict)
    (hkey : isKey (remove_old_url_keys now d0 limit_hours) e.link = true) :
    e ∉ entriesToPublish now limit_hours (remove_old_url_keys now d0 limit_hours) entries ∧
    (processEntries ignored
        (entriesToPublish now limit_hours (remove_old_url_keys now d0 limit_hours) entries)
        (remove_old_url_keys now d0 limit_hours) = some out →
      ∀ c ∈ out.1, c.1 ≠ e) := by
  have hnotmem :
      e ∉ entriesToPublish now limit_hours (remove_old_url_keys now d0 limit_hours) entries := by
    rw [entriesToPublish_eq_filter]
    intro hmem
    have hel := (List.mem_filter.mp hmem).2
    rw [eligibleDecide_false_of_key now limit_hours _ e hkey] at hel
    exact Bool.noConfusion hel
  refine ⟨hnotmem, ?_⟩
  intro hrun c hc
  rcases processGo_mem_calls ignored _ [] _ out hrun c hc with h1 | h2
  · exact absurd h1 (List.not_mem_nil c)
  · intro hce
    exact hnotmem (hce ▸ h2)

theorem recordedUrl_not_republished_witness :
    wEntry ∉ entriesToPublish 100 24 (remove_old_url_keys 100 [("u", 0)] 24) [wEntry] :=
  (recordedUrl_not_republished 100 24 [("u", 0)] [wEntry] wEntry []
    ([], [("u", 0)]) (by decide)).1

/-- C2: the entry filter equals the spec's contract: the subset of the
fetched entries eligible for publication, in feed order, each entry decided
by the first matching rule (daily-thread marker in title; older than the
retention window; URL already a key of the publish record; else eligible). -/
theorem entryFilter_matches_spec_order (now limit_hours : Int) (d : UrlDict)
    (entries : List FeedEntry) :
    entriesToPublish now limit_hours d entries
      = entriesToPublishSpec now limit_hours d entries :=
  entriesToPublish_eq_filter now limit_hours d entries

/-- C3: pruning with retention window `limit_hours` removes exactly the
records at least that old: nothing `≥` the window survives, and every
strictly younger record is kept with its value unchanged. -/
theorem remove_old_url_keys_prunes_exactly (now limit_hours : Int) (d : UrlDict) :
    (∀ p ∈ remove_old_url_keys now d limit_hours, ¬(now - p.2 ≥ limit_hours * 3600)) ∧
    (∀ p ∈ d, now - p.2 < limit_hours * 3600 → p ∈ remove_old_url_keys now d limit_hours) := by
  constructor
  · intro p hp
    have h3 : now - p.2 < limit_hours * 3600 := by
      simpa using (List.mem_filter.mp hp).2
    omega
  · intro p hp h
    exact List.mem_filter.mpr ⟨hp, by simpa using h⟩

theorem remove_old_url_keys_prunes_exactly_witness :
    ¬((100 : Int) - 0 ≥ 24 * 3600) ∧
    ("u", (0 : Int)) ∈ remove_old_url_keys 100 [("u", 0)] 24 :=
  ⟨(remove_old_url_keys_prunes_exactly 100 24 [("u", 0)]).1 ("u", 0) (by decide),
   (remove_old_url_keys_prunes_exactly 100 24 [("u", 0)]).2 ("u", 0) (by decide) (by decide)⟩

/-- C4: an entry strictly older than the retention window is excluded by the
filter whatever the publish record holds; an entry exactly at the window
boundary is not excluded by the age rule (it is published when the other
rules also pass). -/
theorem old_entry_excluded_boundary_kept (now limit_hours : Int) (d : UrlDict)
    (entries : List FeedEntry) (e : FeedEntry) :
    (now - e.published > limit_hours * 3600 →
      e ∉ entriesToPublish now limit_hours d entries) ∧
    (e ∈ entries → now - e.published = limit_hours * 3600 →
      strContains e.title dailyThreadMarker = false →
      isKey d e.link = false →
      e ∈ entriesToPublish now limit_hours d entries) := by
  constructor
  · intro hold hmem
    rw [entriesToPublish_eq_filter] at hmem
    have hel := (List.mem_filter.mp hmem).2
    rw [eligibleDecide_false_of_old now limit_hours d e hold] at hel
    exact Bool.noConfusion hel
  · intro hmem hage hmark hkey
    rw [entriesToPublish_eq_filter]
    refine List.mem_filter.mpr ⟨hmem, ?_⟩
    unfold eligibleDecide
    rw [if_neg (show ¬(strContains e.title dailyThreadMarker = true) by simp [hmark]),
      if_neg (show ¬(now - e.published > limit_hours * 3600) by omega),
      if_neg (show ¬(isKey d e.link = true) by simp [hkey])]

theorem old_entry_excluded_boundary_kept_witness :
    wEntry ∉ entriesToPublish 100000 24 [] [wEntry] ∧
    wEntry ∈ entriesToPublish 86400 24 [] [wEntry] :=
  ⟨(old_entry_excluded_boundary_kept 100000 24 [] [wEntry] wEntry).1 (by decide),
   (old_entry_excluded_boundary_kept 86400 24 [] [wEntry] wEntry).2
     (by decide) (by decide) (by decide) (by decide)⟩

/-- C5: on a summary whose anchors all have a first child, the extractor
returns one bullet line `- [label](href)` per anchor in document order (the
label given by the first-match rule), and the extracted URL is the href of
the anchor with text `[link]` (`none` when no anchor matches; when exactly
one matches, its href). -/
theorem format_and_extract_contract (anchors : List Anchor)
    (h : ∀ a ∈ anchors, a.childTexts ≠ []) :
    format_and_extract anchors
      = some (concatAll (anchors.map bulletLine), lastLinkHref none anchors) ∧
    ((∀ a ∈ anchors, firstText a ≠ "[link]") → lastLinkHref none anchors = none) ∧
    (∀ a : Anchor,
      anchors.filter (fun x => decide (firstText x = "[link]")) = [a] →
      lastLinkHref none anchors = a.href) := by
  refine ⟨?_, lastLinkHref_no_link anchors none, fun a ha => lastLinkHref_unique anchors a ha⟩
  unfold format_and_extract
  rw [faeGo_characterization anchors "" none h, string_empty_append]

theorem format_and_extract_contract_witness :
    format_and_extract wAnchors
      = some (concatAll (wAnchors.map bulletLine), lastLinkHref none wAnchors) ∧
    lastLinkHref none wAnchors = some "http://a" :=
  ⟨(format_and_extract_contract wAnchors (by decide)).1,
   (format_and_extract_contract wAnchors (by decide)).2.2
     { childTexts := ["[link]"], href := some "http://a" } (by decide)⟩

/-- C6: when the registrable domain of an entry's extracted URL is in the
ignore set, the publish loop makes no publish call for that entry and does
not insert its URL into the publish record; every publish call the loop
does make is for an entry whose domain is not ignored. -/
theorem ignored_domain_suppressed (ignored : List PyVal) (entries : List FeedEntry)
    (d : UrlDict) (out : List (FeedEntry × PublishCall) × UrlDict)
    (hrun : processEntries ignored entries d = some out) :
    (∀ e ∈ entries, pyMem (domainOf e) ignored = true →
      (∀ c ∈ out.1, c.1 ≠ e) ∧
      (isKey d e.link = false →
        (∀ e2 ∈ entries, e2.link = e.link → pyMem (domainOf e2) ignored = true) →
        isKey out.2 e.link = false)) ∧
    (∀ c ∈ out.1, pyMem (domainOf c.1) ignored = false) := by
  have hcalls : ∀ c ∈ out.1, pyMem (domainOf c.1) ignored = false :=
    processGo_calls_not_ignored ignored entries [] d out hrun
      (fun c hc => absurd hc (List.not_mem_nil c))
  refine ⟨?_, hcalls⟩
  intro e _ hig
  constructor
  · intro c hc hce
    have hcf := hcalls c hc
    rw [hce, hig] at hcf
    exact Bool.noConfusion hcf
  · intro hkey hall
    exact processGo_key_preserved ignored e.link entries [] d out hrun hkey hall

theorem ignored_domain_suppressed_witness :
    (∀ c ∈ (([], []) : List (FeedEntry × PublishCall) × UrlDict).1, c.1 ≠ wBadEntry) ∧
    isKey (([], []) : List (FeedEntry × PublishCall) × UrlDict).2 wBadEntry.link = false := by
  have h := ignored_domain_suppressed [PyVal.str "bad.com"] [wBadEntry] [] ([], [])
    (by decide)
  have h2 := h.1 wBadEntry (by decide) (by decide)
  exact ⟨h2.1, h2.2 (by decide) (by decide)⟩

/-- C7: when registrable-domain extraction fails (in particular on an absent
URL), `find_base_domain` returns the integer sentinel `-1` instead of
raising; the ignore set loaded by `load_ignored_domains` holds only
non-empty, non-`#`-prefixed strings, so the sentinel is never a member and
such an entry is never suppressed as ignored. -/
theorem find_base_domain_sentinel_never_ignored :
    (∀ u : Option String,
      tldextract_extract u = Except.error () → find_base_domain u = PyVal.int (-1)) ∧
    (∀ lines : List String, ∀ v ∈ load_ignored_domains lines,
      ∃ s, v = PyVal.str s ∧ s ≠ "" ∧ strStartsWith s "#" = false) ∧
    (∀ lines : List String,
      pyMem (PyVal.int (-1)) (load_ignored_domains lines) = false) := by
  refine ⟨?_, fun lines v hv => mem_load_ignored_domains hv, ?_⟩
  · intro u h
    unfold find_base_domain
    rw [h]
  · intro lines
    cases hmem : pyMem (PyVal.int (-1)) (load_ignored_domains lines) with
    | false => rfl
    | true =>
      exfalso
      unfold pyMem at hmem
      rw [List.any_eq_true] at hmem
      obtain ⟨x, hx, he⟩ := hmem
      obtain ⟨s, hs, -, -⟩ := mem_load_ignored_domains hx
      rw [hs] at he
      exact PyVal.noConfusion (of_decide_eq_true he)

theorem find_base_domain_sentinel_never_ignored_witness :
    find_base_domain none = PyVal.int (-1) ∧
    pyMem (PyVal.int (-1)) (load_ignored_domains ["# comment", "", " example.com "]) = false :=
  ⟨find_base_domain_sentinel_never_ignored.1 none rfl,
   find_base_domain_sentinel_never_ignored.2.2 ["# comment", "", " example.com "]⟩

/-- C8 counterexample: the label-derivation rule is not idempotent on its
own output: the anchor text `[[x]]` yields the label `[x]`, and applying the
rule to `[x]` yields `x`. -/
theorem label_rule_not_idempotent_counterexample :
    deriveLabel (deriveLabel "[[x]]") ≠ deriveLabel "[[x]]" := by decide

/-- C8 (amended): the label-derivation rule is idempotent on its own output
whenever the produced label does not start with `[` or `/u/`, does not end
with `]`, and contains no `&` (no HTML entity): on such a label every rule
case and the unescape are the identity. -/
theorem label_rule_idempotent_amended (t : String)
    (h1 : strStartsWith (deriveLabel t) "[" = false)
    (h2 : strStartsWith (deriveLabel t) "/u/" = false)
    (h3 : strEndsWith (deriveLabel t) "]" = false)
    (h4 : '&' ∉ (deriveLabel t).data) :
    deriveLabel (deriveLabel t) = deriveLabel t :=
  deriveLabel_fixed (deriveLabel t) h1 h2 h3 h4

theorem label_rule_idempotent_amended_witness :
    deriveLabel (deriveLabel "[link]") = deriveLabel "[link]" :=
  label_rule_idempotent_amended "[link]" (by decide) (by decide) (by decide) (by decide)

/-- C9: the persisted last-fetch marker has no effect on filtering or
publication: the run writes `now` over the marker whatever happens later,
and two runs differing only in the loaded marker select the same eligible
entries and produce the same publish calls and final record. -/
theorem lastFetchMarker_no_influence (m1 m2 : Int) (ignoreLines : List String)
    (entries : List FeedEntry) (storedDict : UrlDict) (now : Int) :
    (runBot m1 ignoreLines entries storedDict now).writtenMarker = now ∧
    (runBot m1 ignoreLines entries storedDict now).eligible
      = (runBot m2 ignoreLines entries storedDict now).eligible ∧
    (runBot m1 ignoreLines entries storedDict now).outcome
      = (runBot m2 ignoreLines entries storedDict now).outcome :=
  ⟨rfl, rfl, rfl⟩

/-- C10: `format_and_extract` is partial: on a summary containing an anchor
element with no child nodes, `next()` on the empty child iterator raises
(modelled by `none`) instead of returning a result. -/
theorem format_and_extract_raises_on_childless_anchor :
    format_and_extract [{ childTexts := [], href := some "http://example.com" }] = none :=
  rfl
